import Mathlib

set_option maxRecDepth 100000

/-!
# Utreexo accumulator (rustreexo WASM bindings): verification development

This file embeds the hash-tree layer of the rustreexo WASM binding test
suite (`tests/typescript/src/utreexo-reference-vectors.test.ts`) together
with a model of the accumulator engine described by the specification, and
proves the specification's testable properties against them.

Hashes are 32-byte values, represented as lists of naturals below 256.
`hashFromU8`, `parentHash` and `buildHashTree` are translated from the
TypeScript sources; the Stump/Pollard engine (whose Rust sources are not
part of this repository) is modelled from the specification.
-/

namespace Rustreexo

/-- A byte string: each entry is a byte value (a natural below 256). -/
abbrev Bytes := List Nat

/-! ## SHA-2 primitives

`hashFromU8` computes SHA-256 (via CryptoJS) and `parentHash` computes
SHA-512/256 (via node's `crypto`).  Both are embedded here as the standard
FIPS 180-4 algorithms over byte lists, with machine words as naturals
reduced modulo `2 ^ w`. -/

/-- Right rotation of a `w`-bit word. -/
def rotr (w n x : Nat) : Nat := ((x >>> n) ||| (x <<< (w - n))) % 2 ^ w

/-- Big-endian encoding of `v` into exactly `k` bytes (most significant first). -/
def beBytes : Nat → Nat → Bytes
  | 0, _ => []
  | k + 1, v => beBytes k (v >>> 8) ++ [v % 256]

/-- Big-endian word value of a byte string. -/
def bytesToWord (bs : Bytes) : Nat := bs.foldl (fun a b => a * 256 + b) 0

/-- Split a byte string into consecutive chunks of `sz` bytes (structural
recursion on a fuel bound so that the kernel can evaluate it). -/
def chunksOfGo (sz : Nat) : Nat → Bytes → List Bytes
  | _, [] => []
  | 0, _ => []
  | fuel + 1, b :: rest => ((b :: rest).take sz) :: chunksOfGo sz fuel (rest.drop (sz - 1))

/-- Split a byte string into consecutive chunks of `sz` bytes. -/
def chunksOf (sz : Nat) (l : Bytes) : List Bytes := chunksOfGo sz l.length l

/-- Split a byte string into big-endian words of `wb` bytes each. -/
def toWordsGo (wb : Nat) : Nat → Bytes → List Nat
  | _, [] => []
  | 0, _ => []
  | fuel + 1, b :: rest =>
    bytesToWord ((b :: rest).take wb) :: toWordsGo wb fuel (rest.drop (wb - 1))

/-- Split a byte string into big-endian words of `wb` bytes each. -/
def toWords (wb : Nat) (l : Bytes) : List Nat := toWordsGo wb l.length l

/-- SHA-2 padding: append `0x80`, zero bytes up to `lenb` bytes short of a
block boundary, then the bit length on `lenb` big-endian bytes. -/
def sha2pad (blk lenb : Nat) (msg : Bytes) : Bytes :=
  let zeros := (blk - (msg.length + 1 + lenb) % blk) % blk
  msg ++ 0x80 :: (List.replicate zeros 0 ++ beBytes lenb (8 * msg.length))

/-- Message-schedule extension: from the sliding window of the previous 16
words, produce the next `n` scheduled words. -/
def schedule (s0 s1 : Nat → Nat) (m : Nat) : Nat → List Nat → List Nat
  | 0, _ => []
  | n + 1, win =>
    match win with
    | w16 :: w15 :: rest =>
      let next := (w16 + s0 w15 + rest.getD 7 0 + s1 (rest.getD 12 0)) % m
      next :: schedule s0 s1 m n (w15 :: (rest ++ [next]))
    | _ => []

/-- The eight working variables of a SHA-2 compression. -/
structure Words8 where
  a : Nat
  b : Nat
  c : Nat
  d : Nat
  e : Nat
  f : Nat
  g : Nat
  h : Nat

/-- Pointwise modular addition of two states. -/
def add8 (m : Nat) (x y : Words8) : Words8 :=
  ⟨(x.a + y.a) % m, (x.b + y.b) % m, (x.c + y.c) % m, (x.d + y.d) % m,
   (x.e + y.e) % m, (x.f + y.f) % m, (x.g + y.g) % m, (x.h + y.h) % m⟩

/-- One SHA-2 compression round on constant/word pair `kw`. -/
def shaRound (m : Nat) (bigS0 bigS1 : Nat → Nat) (st : Words8) (kw : Nat × Nat) :
    Words8 :=
  let ch := (st.e &&& st.f) ^^^ ((st.e ^^^ (m - 1)) &&& st.g)
  let t1 := (st.h + bigS1 st.e + ch + kw.1 + kw.2) % m
  let maj := (st.a &&& st.b) ^^^ (st.a &&& st.c) ^^^ (st.b &&& st.c)
  let t2 := (bigS0 st.a + maj) % m
  ⟨(t1 + t2) % m, st.a, st.b, st.c, (st.d + t1) % m, st.e, st.f, st.g⟩

/-- Process one message block. -/
def shaBlock (m wb rounds : Nat) (s0 s1 bigS0 bigS1 : Nat → Nat) (k : List Nat)
    (st : Words8) (block : Bytes) : Words8 :=
  let w16 := toWords wb block
  let ws := w16 ++ schedule s0 s1 m (rounds - 16) w16
  add8 m st ((k.zip ws).foldl (shaRound m bigS0 bigS1) st)

/-- A state as the list of its eight words. -/
def words8ToList (st : Words8) : List Nat :=
  [st.a, st.b, st.c, st.d, st.e, st.f, st.g, st.h]

/-- A state from a list of eight initial words. -/
def words8OfList (l : List Nat) : Words8 :=
  ⟨l.getD 0 0, l.getD 1 0, l.getD 2 0, l.getD 3 0,
   l.getD 4 0, l.getD 5 0, l.getD 6 0, l.getD 7 0⟩

/-- The generic SHA-2 hash: pad, compress block by block, emit the state
big-endian. -/
def shaRun (m wb rounds blk lenb : Nat) (s0 s1 bigS0 bigS1 : Nat → Nat)
    (k iv : List Nat) (msg : Bytes) : Bytes :=
  let fin := (chunksOf blk (sha2pad blk lenb msg)).foldl
    (shaBlock m wb rounds s0 s1 bigS0 bigS1 k) (words8OfList iv)
  ((words8ToList fin).map (beBytes wb)).flatten

/-- The SHA-256 round constants (FIPS 180-4). -/
def K256 : List Nat :=
  [1116352408, 1899447441, 3049323471, 3921009573, 961987163, 1508970993,
   2453635748, 2870763221, 3624381080, 310598401, 607225278, 1426881987,
   1925078388, 2162078206, 2614888103, 3248222580, 3835390401, 4022224774,
   264347078, 604807628, 770255983, 1249150122, 1555081692, 1996064986,
   2554220882, 2821834349, 2952996808, 3210313671, 3336571891, 3584528711,
   113926993, 338241895, 666307205, 773529912, 1294757372, 1396182291,
   1695183700, 1986661051, 2177026350, 2456956037, 2730485921, 2820302411,
   3259730800, 3345764771, 3516065817, 3600352804, 4094571909, 275423344,
   430227734, 506948616, 659060556, 883997877, 958139571, 1322822218,
   1537002063, 1747873779, 1955562222, 2024104815, 2227730452, 2361852424,
   2428436474, 2756734187, 3204031479, 3329325298]

/-- The SHA-256 initial hash value. -/
def IV256 : List Nat :=
  [1779033703, 3144134277, 1013904242, 2773480762,
   1359893119, 2600822924, 528734635, 1541459225]

/-- SHA-256 of a byte string. -/
def sha256 (msg : Bytes) : Bytes :=
  shaRun (2 ^ 32) 4 64 64 8
    (fun x => rotr 32 7 x ^^^ rotr 32 18 x ^^^ (x >>> 3))
    (fun x => rotr 32 17 x ^^^ rotr 32 19 x ^^^ (x >>> 10))
    (fun x => rotr 32 2 x ^^^ rotr 32 13 x ^^^ rotr 32 22 x)
    (fun x => rotr 32 6 x ^^^ rotr 32 11 x ^^^ rotr 32 25 x)
    K256 IV256 msg

/-- The SHA-512 round constants (FIPS 180-4). -/
def K512 : List Nat :=
  [4794697086780616226, 8158064640168781261, 13096744586834688815, 16840607885511220156,
   4131703408338449720, 6480981068601479193, 10538285296894168987, 12329834152419229976,
   15566598209576043074, 1334009975649890238, 2608012711638119052, 6128411473006802146,
   8268148722764581231, 9286055187155687089, 11230858885718282805, 13951009754708518548,
   16472876342353939154, 17275323862435702243, 1135362057144423861, 2597628984639134821,
   3308224258029322869, 5365058923640841347, 6679025012923562964, 8573033837759648693,
   10970295158949994411, 12119686244451234320, 12683024718118986047, 13788192230050041572,
   14330467153632333762, 15395433587784984357, 489312712824947311, 1452737877330783856,
   2861767655752347644, 3322285676063803686, 5560940570517711597, 5996557281743188959,
   7280758554555802590, 8532644243296465576, 9350256976987008742, 10552545826968843579,
   11727347734174303076, 12113106623233404929, 14000437183269869457, 14369950271660146224,
   15101387698204529176, 15463397548674623760, 17586052441742319658, 1182934255886127544,
   1847814050463011016, 2177327727835720531, 2830643537854262169, 3796741975233480872,
   4115178125766777443, 5681478168544905931, 6601373596472566643, 7507060721942968483,
   8399075790359081724, 8693463985226723168, 9568029438360202098, 10144078919501101548,
   10430055236837252648, 11840083180663258601, 13761210420658862357, 14299343276471374635,
   14566680578165727644, 15097957966210449927, 16922976911328602910, 17689382322260857208,
   500013540394364858, 748580250866718886, 1242879168328830382, 1977374033974150939,
   2944078676154940804, 3659926193048069267, 4368137639120453308, 4836135668995329356,
   5532061633213252278, 6448918945643986474, 6902733635092675308, 7801388544844847127]

/-- The SHA-512/256 initial hash value (FIPS 180-4 §5.3.6.2). -/
def IV512t256 : List Nat :=
  [2463787394917988140, 11481187982095705282, 2563595384472711505, 10824532655140301501,
   10819967247969091555, 13717434660681038226, 3098927326965381290, 1060366662362279074]

/-- SHA-512/256 of a byte string: the SHA-512 algorithm with its own initial
value, truncated to the first 32 bytes. -/
def sha512t256 (msg : Bytes) : Bytes :=
  (shaRun (2 ^ 64) 8 80 128 16
    (fun x => rotr 64 1 x ^^^ rotr 64 8 x ^^^ (x >>> 7))
    (fun x => rotr 64 19 x ^^^ rotr 64 61 x ^^^ (x >>> 6))
    (fun x => rotr 64 28 x ^^^ rotr 64 34 x ^^^ rotr 64 39 x)
    (fun x => rotr 64 14 x ^^^ rotr 64 18 x ^^^ rotr 64 41 x)
    K512 IV512t256 msg).take 32


/-! ## Hex strings

The FFI layer exchanges hashes as 64-character hexadecimal strings,
modelled as lists of characters. -/

/-- The value of a lowercase hexadecimal digit (`None` on anything else). -/
def hexValLower (c : Char) : Option Nat :=
  if '0' ≤ c ∧ c ≤ '9' then some (c.toNat - 48)
  else if 'a' ≤ c ∧ c ≤ 'f' then some (c.toNat - 87)
  else none

/-- Whether `c` is a hexadecimal digit of either case (the character class
of the `[0-9a-fA-F]` test in `parentHash`). -/
def isHexAny (c : Char) : Bool :=
  ('0' ≤ c ∧ c ≤ '9') ∨ ('a' ≤ c ∧ c ≤ 'f') ∨ ('A' ≤ c ∧ c ≤ 'F')

/-- The value of a hexadecimal digit of either case, defaulting to `0`
(callers guard with `isHexAny` first, as `Buffer.from(hex, 'hex')` is
guarded by the regular-expression test in the source). -/
def hexValAny (c : Char) : Nat :=
  if '0' ≤ c ∧ c ≤ '9' then c.toNat - 48
  else if 'a' ≤ c ∧ c ≤ 'f' then c.toNat - 87
  else if 'A' ≤ c ∧ c ≤ 'F' then c.toNat - 55
  else 0

/-- Strict decoding of a lowercase hexadecimal string into bytes. -/
def hexDecode : List Char → Option Bytes
  | [] => some []
  | [_] => none
  | c1 :: c2 :: rest =>
    match hexValLower c1, hexValLower c2, hexDecode rest with
    | some hi, some lo, some bs => some ((16 * hi + lo) :: bs)
    | _, _, _ => none

/-- Decoding of a hexadecimal string of either case into bytes, with junk
digits read as `0` (always guarded by a validity test). -/
def hexDecodeAny : List Char → Bytes
  | [] => []
  | [_] => []
  | c1 :: c2 :: rest => (16 * hexValAny c1 + hexValAny c2) :: hexDecodeAny rest

/-- The lowercase hexadecimal digit of a value below 16. -/
def hexDigit (n : Nat) : Char :=
  if n < 10 then Char.ofNat (48 + n) else Char.ofNat (87 + n)

/-- Lowercase hexadecimal encoding of a byte string. -/
def hexEncode (bs : Bytes) : List Char :=
  (bs.map (fun b => [hexDigit (b / 16), hexDigit (b % 16)])).flatten

/-! ## The hashing layer of the reference test suite

Embedded from `tests/typescript/src/utreexo-reference-vectors.test.ts`. -/

/-- `hashFromU8`: validates that the preimage is an integer in `0..255`,
then hashes it via CryptoJS SHA-256.  `WordArray.create` applied to the
plain array `Array.from(new Uint8Array([preimage]))` reads its single entry
as one 32-bit word (`sigBytes = 4`), so the bytes actually hashed are the
4-byte big-endian encoding of the preimage, not the single byte itself. -/
def hashFromU8 (preimage : Nat) : Option Bytes :=
  if preimage ≤ 255 then some (sha256 (beBytes 4 preimage)) else none

/-- The leaf hash the reference vectors are built from: SHA-256 of the
4-byte big-endian encoding of the preimage (the value `hashFromU8`
computes on an in-range preimage). -/
def leafHash (i : Nat) : Bytes := sha256 (beBytes 4 i)

/-- SHA-256 of the literal single byte `i`: what `hashFromU8`'s own doc
comment ("the SHA-256 hash of that single byte") and the specification
describe, but not what the function computes. -/
def singleByteHash (i : Nat) : Bytes := sha256 [i % 256]

/-- `parentHash` on raw 32-byte digests: SHA-512/256 of the 64-byte
concatenation (the hash computed by `crypto.createHash('sha512-256')`). -/
def parentHashBytes (left right : Bytes) : Bytes := sha512t256 (left ++ right)

/-- `parentHash` from the test suite: validates both arguments against
`/^[0-9a-fA-F]{64}$/`, decodes them, and returns the lowercase hexadecimal
SHA-512/256 digest of their concatenation; throws (here: `none`) on any
argument that is not a 64-character hexadecimal string. -/
def parentHash (left right : List Char) : Option (List Char) :=
  if left.length = 64 ∧ right.length = 64 ∧
      left.all isHexAny ∧ right.all isHexAny then
    some (hexEncode (parentHashBytes (hexDecodeAny left) (hexDecodeAny right)))
  else none

/-- One pass of `buildHashTree`'s inner pairing loop: hash consecutive
pairs into the next level and return the odd leftover node, if any. -/
def pairUp : List Bytes → List Bytes × Option Bytes
  | [] => ([], none)
  | [x] => ([], some x)
  | x :: y :: rest =>
    let (next, odd) := pairUp rest
    (parentHashBytes x y :: next, odd)

/-- `buildHashTree`'s outer loop (on a structural fuel bound): repeatedly
pair the current level up, pushing odd nodes and finally the last root.
Roots are accumulated in front, which realizes the source's final
`roots.reverse()` (tallest tree first). -/
def buildGo : Nat → List Bytes → List Bytes → List Bytes
  | _, [], acc => acc
  | _, [x], acc => x :: acc
  | 0, _ :: _ :: _, acc => acc
  | fuel + 1, x :: y :: rest, acc =>
    let (next, odd) := pairUp (x :: y :: rest)
    buildGo fuel next (match odd with | some r => r :: acc | none => acc)

/-- `buildHashTree` from the test suite, on raw digests: build the forest
bottom-up, returning the roots from the tallest tree to the shortest. -/
def buildHashTree (leafHashes : List Bytes) : List Bytes :=
  buildGo leafHashes.length leafHashes []

/-! ## Binary carries -/

/-- The number of set bits of `n` (on a structural fuel bound). -/
def popcountGo : Nat → Nat → Nat
  | _, 0 => 0
  | 0, _ => 0
  | fuel + 1, n => n % 2 + popcountGo fuel (n / 2)

/-- The number of set bits of `n`. -/
def popcount (n : Nat) : Nat := popcountGo n n

/-- The heights of the set bits of `n`, lowest first (fuelled). -/
def bitIdxAsc : Nat → Nat → Nat → List Nat
  | _, 0, _ => []
  | 0, _, _ => []
  | fuel + 1, n, i => (if n % 2 = 1 then [i] else []) ++ bitIdxAsc fuel (n / 2) (i + 1)

/-- The heights of the perfect trees of a forest over `n` leaves, tallest
first: the positions of the set bits of `n`, highest first. -/
def treeHeights (n : Nat) : List Nat := (bitIdxAsc n n 0).reverse

/-! ## Carry-propagation insertion

Modelled from the spec: the Forest engine's addition algorithm ("the new
leaf becomes a new single-leaf root ... merging cascades as long as the new
combined root's size matches the next existing root's size"); the Rust
accumulator sources are not part of this repository.  Roots are kept as
(height, digest) pairs, shortest tree first; the accessor reverses into
the tallest-first presentation order. -/

/-- Cascade a new root of height `h` into a shortest-first root list,
merging while the next root has the same height (the existing root is the
left child, the incoming one the right). -/
def mergeUp (h : Nat) (r : Bytes) : List (Nat × Bytes) → List (Nat × Bytes)
  | [] => [(h, r)]
  | (h0, r0) :: rest =>
    if h0 = h then mergeUp (h + 1) (parentHashBytes r0 r) rest
    else (h, r) :: (h0, r0) :: rest

/-- Add one leaf to a shortest-first root list by carry propagation. -/
def carryAdd (roots : List (Nat × Bytes)) (leaf : Bytes) : List (Nat × Bytes) :=
  mergeUp 0 leaf roots

/-- Add leaves one at a time, in the caller-supplied order. -/
def carryAddAll (roots : List (Nat × Bytes)) (leaves : List Bytes) : List (Nat × Bytes) :=
  leaves.foldl carryAdd roots

/-- The externally visible root sequence of a carry-propagation root list:
tallest tree first. -/
def carryRoots (roots : List (Nat × Bytes)) : List Bytes :=
  (roots.map Prod.snd).reverse



/-! ## Proofs and verification

Modelled from the spec (§4.5): the proof data structure shared by Stump
and Pollard, and the bottom-up verification replay; the Rust accumulator
sources are not part of this repository. -/

/-- The error taxonomy of §7. -/
inductive UErr where
  | malformedInput
  | proofMismatch
  | targetNotFound
  | shapeInconsistency
deriving DecidableEq

/-- Decidable equality of call results (for evaluating concrete runs). -/
instance {e a : Type} [DecidableEq e] [DecidableEq a] : DecidableEq (Except e a) :=
  fun x y =>
    match x, y with
    | .error x', .error y' =>
      if h : x' = y' then isTrue (by rw [h]) else
        isFalse (by intro hc; cases hc; exact h rfl)
    | .ok x', .ok y' =>
      if h : x' = y' then isTrue (by rw [h]) else
        isFalse (by intro hc; cases hc; exact h rfl)
    | .error _, .ok _ => isFalse (by intro hc; cases hc)
    | .ok _, .error _ => isFalse (by intro hc; cases hc)

/-- A membership proof: ordered target positions plus the sibling hashes
not derivable from the targets themselves. -/
structure Proof where
  targets : List Nat
  hashes : List Bytes
deriving DecidableEq

/-- Whether a position list is strictly ascending. -/
def ascendingStrict : List Nat → Bool
  | [] => true
  | [_] => true
  | a :: b :: rest => a < b && ascendingStrict (b :: rest)

/-- One row of the bottom-up replay: combine the ascending (position,
digest) pairs of a row into their parents, pairing two adjacent entries
that are siblings and otherwise consuming the next unconsumed proof hash
on the side determined by position parity; returns the next row and the
remaining proof hashes, or `none` if the proof hashes run out. -/
def verifyRow : List (Nat × Bytes) → List Bytes → Option (List (Nat × Bytes) × List Bytes)
  | [], hs => some ([], hs)
  | (p, x) :: rest, hs =>
    if p % 2 = 0 then
      match rest with
      | (q, y) :: rest' =>
        if q = p + 1 then
          match verifyRow rest' hs with
          | some (nl, hs') => some ((p / 2, parentHashBytes x y) :: nl, hs')
          | none => none
        else
          match hs with
          | s :: hs' =>
            match verifyRow ((q, y) :: rest') hs' with
            | some (nl, hs'') => some ((p / 2, parentHashBytes x s) :: nl, hs'')
            | none => none
          | [] => none
      | [] =>
        match hs with
        | s :: hs' => some ([(p / 2, parentHashBytes x s)], hs')
        | [] => none
    else
      match hs with
      | s :: hs' =>
        match verifyRow rest hs' with
        | some (nl, hs'') => some ((p / 2, parentHashBytes s x) :: nl, hs'')
        | none => none
      | [] => none

/-- Replay one perfect tree of the given height bottom-up from its target
row; returns the computed root and the remaining proof hashes. -/
def verifyTree : Nat → List (Nat × Bytes) → List Bytes → Option (Bytes × List Bytes)
  | 0, row, hs =>
    match row with
    | [(0, h)] => some (h, hs)
    | _ => none
  | height + 1, row, hs =>
    match verifyRow row hs with
    | some (nl, hs') => verifyTree height nl hs'
    | none => none

/-- Walk the forest's trees tallest first, grouping the ascending targets
by the tree they fall under, replaying each non-empty group and comparing
its computed root with the stored root of that tree; a tree with no
targets is not checked.  Fails on leftover targets, leftover proof hashes,
or a stored root sequence whose shape does not match the heights. -/
def verifyGroups : List (Nat × Bytes) → List Nat → List Bytes → Nat → List Bytes → Bool
  | targets, [], [], _, hs => targets.isEmpty && hs.isEmpty
  | targets, height :: hts, r :: rs, offset, hs =>
    let sz := 2 ^ height
    let grp := (targets.filter (fun t => t.1 < offset + sz)).map
      (fun t => (t.1 - offset, t.2))
    let rest := targets.filter (fun t => ¬ t.1 < offset + sz)
    if grp.isEmpty then verifyGroups rest hts rs (offset + sz) hs
    else
      match verifyTree height grp hs with
      | some (c, hs') => (c == r) && verifyGroups rest hts rs (offset + sz) hs'
      | none => false
  | _, _, _, _, _ => false

/-- `verify` (§4.3): validate the proof shape against the current leaf
count, then replay the bottom-up recomputation and compare every affected
root with the stored one. -/
def stumpVerify (n : Nat) (roots : List Bytes) (pf : Proof)
    (targetHashes : List Bytes) : Bool :=
  (pf.targets.length == targetHashes.length) &&
  ascendingStrict pf.targets &&
  pf.targets.all (fun t => t < n) &&
  verifyGroups (pf.targets.zip targetHashes) (treeHeights n) roots 0 pf.hashes

/-! ## The forest engine

Modelled from the spec (§4.2): the conceptual leaf sequence of the forest
is the state; observables (`num_leaves`, `roots`) are derived from it.
Deletion vacates the target positions and fills each hole with the
current last leaf, processing holes from the highest position down. -/

/-- Vacate position `t` by moving the current last leaf into it and
dropping the last slot. -/
def swapRemove {α : Type} (ls : List α) (t : Nat) : Option (List α) :=
  if t < ls.length then
    match ls.getLast? with
    | some last => some ((ls.set t last).dropLast)
    | none => none
  else none

/-- Vacate the given positions in order (callers pass them highest
first). -/
def removeTargets {α : Type} : List α → List Nat → Option (List α)
  | ls, [] => some ls
  | ls, t :: ts =>
    match swapRemove ls t with
    | some ls' => removeTargets ls' ts
    | none => none

/-- Deletion positions, highest first. -/
def sortDesc (l : List Nat) : List Nat := l.insertionSort (fun a b => b ≤ a)

/-- The root sequence of a Stump over the given leaf sequence. -/
def stumpRoots (f : List Bytes) : List Bytes := buildHashTree f

/-- `modify` (§4.3): validate the deletion proof as in `verify`, apply
deletion-compaction, then append the additions; all-or-nothing. -/
def stumpModify (f : List Bytes) (pf : Proof) (delHashes adds : List Bytes) :
    Except UErr (List Bytes) :=
  if pf.targets.length ≠ delHashes.length then .error .malformedInput
  else if stumpVerify f.length (stumpRoots f) pf delHashes = false then
    .error .proofMismatch
  else
    match removeTargets f (sortDesc pf.targets) with
    | some f' => .ok (f' ++ adds)
    | none => .error .shapeInconsistency

/-- A Pollard's leaf sequence: each leaf carries its "remember" flag
(cached-subtree bookkeeping; the observable state ignores it). -/
def pollardLeaves (p : List (Bytes × Bool)) : List Bytes := p.map Prod.fst

/-- The root sequence of a Pollard. -/
def pollardRoots (p : List (Bytes × Bool)) : List Bytes := buildHashTree (pollardLeaves p)

/-- Pollard `modify` (§4.4): as the Stump's, with additions carrying a
per-leaf remember flag. -/
def pollardModify (p : List (Bytes × Bool)) (pf : Proof) (delHashes : List Bytes)
    (adds : List (Bytes × Bool)) : Except UErr (List (Bytes × Bool)) :=
  if pf.targets.length ≠ delHashes.length then .error .malformedInput
  else if stumpVerify p.length (pollardRoots p) pf delHashes = false then
    .error .proofMismatch
  else
    match removeTargets p (sortDesc pf.targets) with
    | some p' => .ok (p' ++ adds)
    | none => .error .shapeInconsistency

/-- The Stump states reachable from the empty accumulator by successful
`modify` calls. -/
inductive StumpReachable : List Bytes → Prop where
  | empty : StumpReachable []
  | step (f : List Bytes) (pf : Proof) (dels adds : List Bytes) (f' : List Bytes) :
      StumpReachable f → stumpModify f pf dels adds = .ok f' → StumpReachable f'

/-- The Pollard states reachable from the empty accumulator by successful
`modify` calls. -/
inductive PollardReachable : List (Bytes × Bool) → Prop where
  | empty : PollardReachable []
  | step (p : List (Bytes × Bool)) (pf : Proof) (dels : List Bytes)
      (adds : List (Bytes × Bool)) (p' : List (Bytes × Bool)) :
      PollardReachable p → pollardModify p pf dels adds = .ok p' → PollardReachable p'

/-- One `modify` call of a driving sequence: the deletion proof, the
hashes being deleted, and the additions with their remember flags (a
Stump is driven with the flags stripped). -/
structure AccOp where
  proof : Proof
  dels : List Bytes
  adds : List (Bytes × Bool)

/-- Drive a Pollard through a sequence of `modify` calls. -/
def runPollardFrom (p : List (Bytes × Bool)) : List AccOp → Except UErr (List (Bytes × Bool))
  | [] => .ok p
  | op :: ops =>
    match pollardModify p op.proof op.dels op.adds with
    | .ok p' => runPollardFrom p' ops
    | .error e => .error e

/-- Drive a Stump through the same sequence of `modify` calls (remember
flags stripped from the additions). -/
def runStumpFrom (f : List Bytes) : List AccOp → Except UErr (List Bytes)
  | [] => .ok f
  | op :: ops =>
    match stumpModify f op.proof op.dels (op.adds.map Prod.fst) with
    | .ok f' => runStumpFrom f' ops
    | .error e => .error e


/-! ## The string boundary

Modelled from the spec (§6) and the behaviour fixed by the test suite:
hashes cross the boundary as 64-character lowercase hexadecimal strings,
and proofs as JSON objects carrying `targets` and `hashes` fields (the
binding's deserializer ignores unknown fields, as exercised by
`utreexo-nodejs.test.ts`).  The Rust/wasm-bindgen glue itself is not part
of this repository. -/

/-- A JSON value. -/
inductive Json where
  | null
  | bool (b : Bool)
  | num (n : Nat)
  | str (chars : List Char)
  | arr (items : List Json)
  | obj (fields : List (List Char × Json))

/-- Look a key up among an object's fields (first match). -/
def jLookup (k : List Char) : List (List Char × Json) → Option Json
  | [] => none
  | (k', v) :: rest => if k' = k then some v else jLookup k rest

/-- Parse a `Hash` from a string: exactly 64 lowercase hexadecimal
characters, anything else a `MalformedInput` error. -/
def parseHashStr (chars : List Char) : Except UErr Bytes :=
  if chars.length = 64 then
    match hexDecode chars with
    | some bs => .ok bs
    | none => .error .malformedInput
  else .error .malformedInput

/-- Parse a list of hash strings, failing on the first invalid one. -/
def parseHashList : List (List Char) → Except UErr (List Bytes)
  | [] => .ok []
  | s :: rest =>
    match parseHashStr s, parseHashList rest with
    | .ok b, .ok bs => .ok (b :: bs)
    | .error e, _ => .error e
    | _, .error e => .error e

/-- Read a JSON array of numbers (proof targets). -/
def jNats : List Json → Option (List Nat)
  | [] => some []
  | .num n :: rest => (jNats rest).map (fun ns => n :: ns)
  | _ => none

/-- Read a JSON array of hash strings. -/
def jHashes : List Json → Option (List Bytes)
  | [] => some []
  | .str s :: rest =>
    match parseHashStr s, jHashes rest with
    | .ok b, some bs => some (b :: bs)
    | _, _ => none
  | _ => none

/-- Parse a proof payload: an object providing a `targets` array of
integers and a `hashes` array of hash strings.  Unknown extra fields are
ignored (serde's default, relied on by the test suite); a payload missing
either field, or of any non-object shape, is `MalformedInput`. -/
def parseProofPayload (j : Json) : Except UErr Proof :=
  match j with
  | .obj fields =>
    match jLookup "targets".toList fields, jLookup "hashes".toList fields with
    | some (.arr ts), some (.arr hs) =>
      match jNats ts, jHashes hs with
      | some targets, some hashes => .ok ⟨targets, hashes⟩
      | _, _ => .error .malformedInput
    | _, _ => .error .malformedInput
  | _ => .error .malformedInput

/-- Whether a payload fails to provide the `targets` and `hashes` fields
(the shapes the spec calls "any other shape"). -/
def lacksProofFields (j : Json) : Bool :=
  match j with
  | .obj fields =>
    (jLookup "targets".toList fields).isNone || (jLookup "hashes".toList fields).isNone
  | _ => true

/-- `stump.verify` at the string boundary: parse the proof payload and the
target hash strings, then verify against the current state. -/
def stumpVerifyCall (f : List Bytes) (proofJson : Json)
    (targetStrs : List (List Char)) : Except UErr Bool :=
  match parseProofPayload proofJson with
  | .error e => .error e
  | .ok pf =>
    match parseHashList targetStrs with
    | .error e => .error e
    | .ok ths => .ok (stumpVerify f.length (stumpRoots f) pf ths)

/-- `stump.modify` at the string boundary, in the mutation style of the
binding: the call returns its outcome together with the state the object
holds afterwards; every error leaves the state exactly as it was. -/
def stumpModifyCall (f : List Bytes) (proofJson : Json)
    (addStrs delStrs : List (List Char)) : Except UErr Unit × List Bytes :=
  match parseProofPayload proofJson with
  | .error e => (.error e, f)
  | .ok pf =>
    match parseHashList addStrs, parseHashList delStrs with
    | .ok adds, .ok dels =>
      match stumpModify f pf dels adds with
      | .ok f' => (.ok (), f')
      | .error e => (.error e, f)
    | .error e, _ => (.error e, f)
    | _, .error e => (.error e, f)

/-- `pollard.modify` at the string boundary (additions carry remember
flags). -/
def pollardModifyCall (p : List (Bytes × Bool)) (proofJson : Json)
    (addStrs : List (List Char × Bool)) (delStrs : List (List Char)) :
    Except UErr Unit × List (Bytes × Bool) :=
  match parseProofPayload proofJson with
  | .error e => (.error e, p)
  | .ok pf =>
    match parseHashList (addStrs.map Prod.fst), parseHashList delStrs with
    | .ok adds, .ok dels =>
      match pollardModify p pf dels (adds.zip (addStrs.map Prod.snd)) with
      | .ok p' => (.ok (), p')
      | .error e => (.error e, p)
    | .error e, _ => (.error e, p)
    | _, .error e => (.error e, p)

/-! ## Serialization -/

/-- The canonical Stump export: the root sequence as hexadecimal strings
and the leaf counter (`{roots, leaves}`). -/
structure StumpJson where
  roots : List (List Char)
  leaves : Nat

/-- `to_json`: export the observable state. -/
def stumpToJson (f : List Bytes) : StumpJson :=
  ⟨(stumpRoots f).map hexEncode, f.length⟩

/-- `from_json`: import an exported state, validating every root string;
yields the observable state (leaf counter and root sequence) the imported
Stump reports. -/
def stumpFromJson (j : StumpJson) : Except UErr (Nat × List Bytes) :=
  match parseHashList j.roots with
  | .ok rs => .ok (j.leaves, rs)
  | .error e => .error e


/-! ## Statement helpers -/

/-- The bytes of a lowercase hexadecimal literal (statement convenience). -/
def hexBytes (s : String) : Bytes := (hexDecode s.toList).getD []

/-- The empty proof payload `{targets: [], hashes: []}`. -/
def emptyProof : Proof := ⟨[], []⟩

/-- The 8-leaf reference accumulator state: leaves `hashFromU8 0 .. 7`. -/
def demoStump8 : List Bytes := (List.range 8).map leafHash

/-- The reference single-target proof for leaf `0` of the 8-leaf state
(`proof_tests[2]` of the reference vectors). -/
def demoProof0 : Proof :=
  ⟨[0],
   [hexBytes "b40711a88c7039756fb8a73827eabe2c0fe5a0346ca7e0a104adc0fc764f528d",
    hexBytes "352f4f82f705895cbd171ea1a35a5cfd5ca751ed14044d48964cbd938dd9f163",
    hexBytes "142122680b35a4bbbe941c09024ad541b143f3ab222603ad8bd7646f5407a12e"]⟩

/-- The single root of the 8-leaf reference state. -/
def rootR8 : Bytes :=
  hexBytes "7fa5fc81986dca5bfa3987c3156ba7055c1f8f486379bb51fce1b340cd3479eb"

/-- A proof payload carrying an extra `proof` field alongside the canonical
`targets` and `hashes` fields, as sent by the binding's own test suite. -/
def extraFieldPayload : Json :=
  .obj [("targets".toList, .arr []), ("proof".toList, .arr []), ("hashes".toList, .arr [])]

/-- Validity of a hash string: exactly 64 lowercase hexadecimal characters. -/
def isHash64 (s : List Char) : Prop :=
  s.length = 64 ∧ ∀ c ∈ s, (hexValLower c).isSome


/-! # Theorems -/

/-- Claim C1, counterexample: adding the SHA-256 hashes of the literal
single bytes `0..7` (as the claim words it) does not yield the root
`7fa5fc81...`; the reference vectors are built from `hashFromU8`, which
hashes the 4-byte big-endian encoding of each byte value instead. -/
theorem c1_counterexample :
    ¬ carryRoots (carryAddAll [] ((List.range 8).map singleByteHash)) = [rootR8] := by
  decide

/-- Claim C1 (amended): adding the leaf hashes `hashFromU8 0 ..` one at a
time in caller-supplied order — SHA-256 of the 4-byte big-endian encoding
of each byte value, as the suite's `hashFromU8` computes — follows binary
carry propagation and returns roots ordered tallest tree first: bytes
`0..7` yield exactly the one listed root, bytes `0..6` exactly the three
listed roots in order, and bytes `0..14` exactly the four listed roots in
order; the suite's `buildHashTree` returns the same sequences. -/
theorem c1_insertion_vectors :
    carryRoots (carryAddAll [] ((List.range 8).filterMap hashFromU8)) = [rootR8] ∧
    buildHashTree ((List.range 8).filterMap hashFromU8) = [rootR8] ∧
    carryRoots (carryAddAll [] ((List.range 7).filterMap hashFromU8)) =
      [hexBytes "67d7d75d6863475c33af5b4225d940c0fa6bd04cf0e45c363255f77a73ac56eb",
       hexBytes "9e0d2c78ffc11e0d3fd039dbd87be8e94f2390d27105aead8f1089c48ce3c5b3",
       hexBytes "b253668f6b59f1ff28522831931e4d3c5a3de533965af22e961735437c0172cb"] ∧
    buildHashTree ((List.range 7).filterMap hashFromU8) =
      [hexBytes "67d7d75d6863475c33af5b4225d940c0fa6bd04cf0e45c363255f77a73ac56eb",
       hexBytes "9e0d2c78ffc11e0d3fd039dbd87be8e94f2390d27105aead8f1089c48ce3c5b3",
       hexBytes "b253668f6b59f1ff28522831931e4d3c5a3de533965af22e961735437c0172cb"] ∧
    carryRoots (carryAddAll [] ((List.range 15).filterMap hashFromU8)) =
      [rootR8,
       hexBytes "d97c7488d146195ed0f68ad89fa90dee02503839208c9ae27974fa92a6993ef2",
       hexBytes "d435ea7ca6a580253a1248fe658939e92889b9be6a026c4cc66442aa662eaabe",
       hexBytes "7fde8eebf388fcff667a89be60430cc6e198b1a78cb603a39cdd09885a3336e3"] ∧
    buildHashTree ((List.range 15).filterMap hashFromU8) =
      [rootR8,
       hexBytes "d97c7488d146195ed0f68ad89fa90dee02503839208c9ae27974fa92a6993ef2",
       hexBytes "d435ea7ca6a580253a1248fe658939e92889b9be6a026c4cc66442aa662eaabe",
       hexBytes "7fde8eebf388fcff667a89be60430cc6e198b1a78cb603a39cdd09885a3336e3"] := by
  decide

/-- Claim C4, counterexample: on the SHA-256 hashes of the literal single
bytes `0` and `1` (as the claim words it), `parentHash` does not return
`1f75c5eb...`; that value is obtained from the `hashFromU8` leaves, which
hash the 4-byte big-endian encodings. -/
theorem c4_counterexample :
    parentHash (hexEncode (singleByteHash 0)) (hexEncode (singleByteHash 1)) ≠
      some "1f75c5eb6687c93442a698c4d58e2cd45c7359af497b233c814c0f7773e0db77".toList := by
  decide

/-- Claim C4 (amended): `parentHash` is the fixed SHA-512/256 digest of the
64-byte concatenation of its two inputs; on the leaves `hashFromU8 0` and
`hashFromU8 1` it returns exactly `1f75c5eb...`, and it is order-sensitive:
swapping the two inputs does not return that value. -/
theorem c4_parent_hash :
    parentHash (hexEncode (leafHash 0)) (hexEncode (leafHash 1)) =
      some "1f75c5eb6687c93442a698c4d58e2cd45c7359af497b233c814c0f7773e0db77".toList ∧
    parentHash (hexEncode (leafHash 1)) (hexEncode (leafHash 0)) ≠
      some "1f75c5eb6687c93442a698c4d58e2cd45c7359af497b233c814c0f7773e0db77".toList := by
  constructor
  · decide
  · decide



/-- A forest with no stored roots fails verification as soon as a tree
remains to check. -/
theorem verifyGroups_no_roots (t : List (Nat × Bytes)) (a : Nat) (b : List Nat)
    (off : Nat) (hs : List Bytes) : verifyGroups t (a :: b) [] off hs = false := rfl

/-- With all trees checked, verification succeeds only with no leftover
roots (and no leftover targets or proof hashes). -/
theorem verifyGroups_done_nil (off : Nat) : verifyGroups [] [] [] off [] = true := rfl

/-- Leftover stored roots after the last tree fail verification. -/
theorem verifyGroups_done_cons (x : Bytes) (xs : List Bytes) (off : Nat)
    (hs : List Bytes) : verifyGroups [] [] (x :: xs) off hs = false := rfl

/-- Unfolding of `verifyGroups` on a single-tree forest holding one target:
the target's tree is replayed and its computed root compared to the first
stored root. -/
theorem verifyGroups_one_tree (p : Nat) (x : Bytes) (ht : Nat) (r : Bytes)
    (rs' hs : List Bytes) (hp : p < 2 ^ ht) :
    verifyGroups [(p, x)] [ht] (r :: rs') 0 hs =
      (match verifyTree ht [(p, x)] hs with
       | some (c, hs') => (c == r) && verifyGroups [] [] rs' (2 ^ ht) hs'
       | none => false) := by
  simp only [verifyGroups]
  simp [hp, List.filter, List.isEmpty]

/-- Claim C2: for the 8-leaf reference accumulator (leaves `hashFromU8
0..7`, root sequence exactly `[R8]`), the single-target proof for leaf `0`
with the three listed sibling hashes verifies to true against `[R8]`, and
the same proof verifies to false against every other stored root
sequence. -/
theorem c2_single_proof_verifies :
    stumpRoots demoStump8 = [rootR8] ∧
    ∀ rs : List Bytes,
      (stumpVerify 8 rs demoProof0 [leafHash 0] = true ↔ rs = [rootR8]) := by
  have hTree : verifyTree 3 [(0, leafHash 0)] demoProof0.hashes =
      some (rootR8, []) := by decide
  have hh : treeHeights 8 = [3] := by decide
  refine ⟨by decide, fun rs => ?_⟩
  have hz : demoProof0.targets.zip [leafHash 0] = [(0, leafHash 0)] := rfl
  simp only [stumpVerify, hh, hz]
  have hlen : (demoProof0.targets.length == [leafHash 0].length) = true := rfl
  have hasc : ascendingStrict demoProof0.targets = true := rfl
  have hall : demoProof0.targets.all (fun t => t < 8) = true := rfl
  rw [hlen, hasc, hall]
  simp only [Bool.true_and]
  cases rs with
  | nil =>
    rw [verifyGroups_no_roots]
    simp
  | cons r rs' =>
    rw [verifyGroups_one_tree 0 (leafHash 0) 3 r rs' demoProof0.hashes (by norm_num),
      hTree]
    cases rs' with
    | nil =>
      simp only [verifyGroups_done_nil, Bool.and_true, beq_iff_eq, List.cons.injEq,
        and_true]
      constructor
      · intro h
        exact h.symm
      · intro h
        exact h.symm
    | cons x xs =>
      simp [verifyGroups_done_cons]


/-- Claim C9, counterexample: the payload `{targets: [], proof: [],
hashes: []}` — an "other shape" carrying an extra `proof` field — is
accepted by both `verify` and `modify` rather than raising MalformedInput,
exactly as the binding's own test suite expects (`utreexo-nodejs.test.ts`
verifies it to `true` on an empty Stump and applies it in `modify`). -/
theorem c9_counterexample :
    stumpVerifyCall [] extraFieldPayload [] = .ok true ∧
    stumpModifyCall [] extraFieldPayload [] [] = (.ok (), []) :=
  ⟨rfl, rfl⟩

/-- Claim C9 (amended): `verify` and `modify` accept exactly the payloads
that provide both a `targets` and a `hashes` field (unknown extra fields
are ignored, serde's default); every payload missing either field — or of
any non-object shape — raises MalformedInput before any mutation: the
verify call errors, and the modify call errors leaving the state exactly
as it was. -/
theorem c9_missing_fields (j : Json) (f : List Bytes)
    (ts addStrs delStrs : List (List Char)) (h : lacksProofFields j = true) :
    stumpVerifyCall f j ts = .error .malformedInput ∧
    stumpModifyCall f j addStrs delStrs = (.error .malformedInput, f) := by
  have hp : parseProofPayload j = .error .malformedInput := by
    cases j with
    | obj fields =>
      simp only [lacksProofFields] at h
      unfold parseProofPayload
      dsimp only
      cases htg : jLookup "targets".toList fields with
      | none => rfl
      | some v =>
        cases hhs : jLookup "hashes".toList fields with
        | none => cases v <;> rfl
        | some w =>
          rw [htg, hhs] at h
          simp at h
    | null => rfl
    | bool b => rfl
    | num n => rfl
    | str c => rfl
    | arr l => rfl
  exact ⟨by simp [stumpVerifyCall, hp], by simp [stumpModifyCall, hp]⟩

/-- Claim C6: `modify` is all-or-nothing on both accumulators: whenever the
call reports an error — malformed payload, invalid hash string, proof
mismatch, shape inconsistency — the state it leaves behind is exactly the
state before the call. -/
theorem c6_atomic_modify :
    (∀ (f : List Bytes) (pj : Json) (a d : List (List Char)) (e : UErr),
        (stumpModifyCall f pj a d).1 = .error e → (stumpModifyCall f pj a d).2 = f) ∧
    (∀ (p : List (Bytes × Bool)) (pj : Json) (a : List (List Char × Bool))
        (d : List (List Char)) (e : UErr),
        (pollardModifyCall p pj a d).1 = .error e → (pollardModifyCall p pj a d).2 = p) := by
  constructor
  · intro f pj a d e h
    unfold stumpModifyCall at h ⊢
    cases hpp : parseProofPayload pj with
    | error e' => simp
    | ok pf =>
      simp only [hpp] at h ⊢
      cases ha : parseHashList a with
      | error e' => simp
      | ok adds =>
        cases hd : parseHashList d with
        | error e' => simp [ha]
        | ok dels =>
          simp only [ha, hd] at h ⊢
          cases hm : stumpModify f pf dels adds with
          | ok f' =>
            rw [hm] at h
            simp at h
          | error e' => simp [hm]
  · intro p pj a d e h
    unfold pollardModifyCall at h ⊢
    cases hpp : parseProofPayload pj with
    | error e' => simp
    | ok pf =>
      simp only [hpp] at h ⊢
      cases ha : parseHashList (a.map Prod.fst) with
      | error e' => simp
      | ok adds =>
        cases hd : parseHashList d with
        | error e' => simp [ha]
        | ok dels =>
          simp only [ha, hd] at h ⊢
          cases hm : pollardModify p pf dels (adds.zip (a.map Prod.snd)) with
          | ok p' =>
            rw [hm] at h
            simp at h
          | error e' => simp [hm]

/-- Bytes decoded from a hexadecimal string certify every character a
lowercase hexadecimal digit. -/
theorem hexDecode_ok_valid (n : Nat) :
    ∀ s : List Char, s.length ≤ n → ∀ b, hexDecode s = some b →
      ∀ c ∈ s, (hexValLower c).isSome := by
  induction n with
  | zero =>
    intro s hs b hb c hc
    cases s with
    | nil => cases hc
    | cons a t => simp at hs
  | succ n ih =>
    intro s hs b hb c hc
    cases s with
    | nil => cases hc
    | cons c1 t =>
      cases t with
      | nil => simp [hexDecode] at hb
      | cons c2 rest =>
        simp only [hexDecode] at hb
        cases h1 : hexValLower c1 with
        | none => rw [h1] at hb; simp at hb
        | some v1 =>
          cases h2 : hexValLower c2 with
          | none => rw [h1, h2] at hb; simp at hb
          | some v2 =>
            cases h3 : hexDecode rest with
            | none => rw [h1, h2, h3] at hb; simp at hb
            | some bs =>
              have hr : rest.length ≤ n := by
                simp at hs
                omega
              rcases List.mem_cons.mp hc with rfl | hc2
              · simp [h1]
              · rcases List.mem_cons.mp hc2 with rfl | hc3
                · simp [h2]
                · exact ih rest hr bs h3 c hc3

/-- Any string that is not exactly 64 lowercase hexadecimal characters is
rejected as MalformedInput when parsed as a hash. -/
theorem parseHashStr_invalid (s : List Char) (h : ¬ isHash64 s) :
    parseHashStr s = .error .malformedInput := by
  unfold parseHashStr
  by_cases hl : s.length = 64
  · simp only [hl, if_pos rfl]
    cases hd : hexDecode s with
    | none => rfl
    | some b =>
      exact absurd ⟨hl, hexDecode_ok_valid s.length s le_rfl b hd⟩ h
  · simp [hl]

/-- A hash list containing an invalid string fails to parse. -/
theorem parseHashList_append_error (pre post : List (List Char)) (s : List Char)
    (h : parseHashStr s = .error .malformedInput) :
    ∃ e, parseHashList (pre ++ s :: post) = .error e := by
  induction pre with
  | nil => exact ⟨.malformedInput, by simp [parseHashList, h]⟩
  | cons p pre ih =>
    obtain ⟨e, he⟩ := ih
    cases hp : parseHashStr p with
    | error e' => exact ⟨e', by simp [parseHashList, hp]⟩
    | ok b => exact ⟨e, by simp [parseHashList, hp, he]⟩

/-- Claim C10: for every string that is not exactly 64 lowercase
hexadecimal characters, constructing a Hash raises MalformedInput, and
supplying it as a leaf hash in a `modify` call leaves the accumulator
state untouched (the error is raised before any state is modified). -/
theorem c10_invalid_hash_rejected (s : List Char) (h : ¬ isHash64 s) :
    parseHashStr s = .error .malformedInput ∧
    ∀ (f : List Bytes) (pj : Json) (pre post delStrs : List (List Char)),
      (stumpModifyCall f pj (pre ++ s :: post) delStrs).2 = f := by
  have hps := parseHashStr_invalid s h
  refine ⟨hps, fun f pj pre post d => ?_⟩
  unfold stumpModifyCall
  cases hpp : parseProofPayload pj with
  | error e => simp
  | ok pf =>
    obtain ⟨e, he⟩ := parseHashList_append_error pre post s hps
    simp [he]


/-- Fuel does not matter to `popcountGo` once it dominates the argument. -/
theorem popcountGo_fuel (f : Nat) :
    ∀ (g n : Nat), n ≤ f → n ≤ g → popcountGo f n = popcountGo g n := by
  induction f with
  | zero =>
    intro g n hf hg
    have : n = 0 := Nat.le_zero.mp hf
    subst this
    cases g <;> rfl
  | succ f ih =>
    intro g n hf hg
    cases n with
    | zero => cases g <;> rfl
    | succ m =>
      cases g with
      | zero => omega
      | succ g' =>
        show (m + 1) % 2 + popcountGo f ((m + 1) / 2) =
          (m + 1) % 2 + popcountGo g' ((m + 1) / 2)
        have h1 : (m + 1) / 2 ≤ f := by omega
        have h2 : (m + 1) / 2 ≤ g' := by omega
        rw [ih g' ((m + 1) / 2) h1 h2]

/-- The recurrence of the bit count. -/
theorem popcount_rec (n : Nat) (h : 0 < n) :
    popcount n = n % 2 + popcount (n / 2) := by
  cases n with
  | zero => omega
  | succ m =>
    show (m + 1) % 2 + popcountGo m ((m + 1) / 2) = (m + 1) % 2 + popcount ((m + 1) / 2)
    unfold popcount
    rw [popcountGo_fuel m ((m + 1) / 2) ((m + 1) / 2) (by omega) le_rfl]

/-- `pairUp` halves a level's length and signals an odd leftover. -/
theorem pairUp_spec (n : Nat) :
    ∀ l : List Bytes, l.length ≤ n →
      (pairUp l).1.length = l.length / 2 ∧
      ((pairUp l).2 = none ↔ l.length % 2 = 0) := by
  induction n with
  | zero =>
    intro l hl
    cases l with
    | nil => simp [pairUp]
    | cons x t => simp at hl
  | succ n ih =>
    intro l hl
    cases l with
    | nil => simp [pairUp]
    | cons x t =>
      cases t with
      | nil => simp [pairUp]
      | cons y rest =>
        have hr : rest.length ≤ n := by
          simp at hl
          omega
        obtain ⟨h1, h2⟩ := ih rest hr
        rcases hp : pairUp rest with ⟨next, odd⟩
        rw [hp] at h1 h2
        dsimp only at h1 h2
        simp only [pairUp, hp]
        constructor
        · simp only [List.length_cons]
          omega
        · simp only [List.length_cons]
          rw [h2]
          omega

/-- Root counting for `buildHashTree`'s outer loop: every level contributes
the bit count of its length. -/
theorem buildGo_length (fuel : Nat) :
    ∀ (level acc : List Bytes), level.length ≤ fuel →
      (buildGo fuel level acc).length = popcount level.length + acc.length := by
  induction fuel with
  | zero =>
    intro level acc h
    cases level with
    | nil => simp [buildGo, show popcount 0 = 0 from rfl]
    | cons x t => simp at h
  | succ fuel ih =>
    intro level acc h
    cases level with
    | nil => simp [buildGo, show popcount 0 = 0 from rfl]
    | cons x t =>
      cases t with
      | nil =>
        show (x :: acc).length = popcount 1 + acc.length
        simp [show popcount 1 = 1 from rfl]
        omega
      | cons y rest =>
        rcases hp : pairUp (x :: y :: rest) with ⟨next, odd⟩
        obtain ⟨hl, ho⟩ := pairUp_spec (x :: y :: rest).length (x :: y :: rest) le_rfl
        rw [hp] at hl ho
        dsimp only at hl ho
        have hlen : (x :: y :: rest).length = rest.length + 2 := by simp
        rw [hlen] at hl ho
        have hnext : next.length ≤ fuel := by
          simp only [List.length_cons] at h
          omega
        have hrec : popcount (rest.length + 2) =
            (rest.length + 2) % 2 + popcount ((rest.length + 2) / 2) :=
          popcount_rec _ (by omega)
        rw [hlen, hrec]
        cases odd with
        | none =>
          have hstep : buildGo (fuel + 1) (x :: y :: rest) acc = buildGo fuel next acc := by
            simp only [buildGo, hp]
          rw [hstep, ih next acc hnext, hl]
          have hmod : (rest.length + 2) % 2 = 0 := ho.mp rfl
          omega
        | some r =>
          have hstep : buildGo (fuel + 1) (x :: y :: rest) acc =
              buildGo fuel next (r :: acc) := by
            simp only [buildGo, hp]
          rw [hstep, ih next (r :: acc) hnext, hl]
          have hmod : ¬ (rest.length + 2) % 2 = 0 := by
            intro hc
            simpa using ho.mpr hc
          simp only [List.length_cons]
          omega

/-- The root-count law holds for every forest state. -/
theorem stumpRoots_popcount (f : List Bytes) :
    (stumpRoots f).length = popcount f.length := by
  have := buildGo_length f.length f [] le_rfl
  simpa [stumpRoots, buildHashTree] using this

/-- Claim C3: for every reachable Stump or Pollard state (every state
produced from the empty accumulator by successful `modify` calls), the
number of roots equals the bit count of the leaf counter. -/
theorem c3_roots_popcount :
    (∀ f : List Bytes, StumpReachable f →
      (stumpRoots f).length = popcount f.length) ∧
    (∀ p : List (Bytes × Bool), PollardReachable p →
      (pollardRoots p).length = popcount p.length) := by
  constructor
  · intro f _
    exact stumpRoots_popcount f
  · intro p _
    have := stumpRoots_popcount (pollardLeaves p)
    simpa [stumpRoots, pollardRoots, pollardLeaves] using this

/-- Witness for C3: the 3-leaf Stump reached by one successful `modify`
has `popcount 3 = 2` roots, and the 1-leaf Pollard reached by one
successful `modify` has `popcount 1 = 1` root. -/
theorem c3_roots_popcount_witness :
    (stumpRoots [leafHash 0, leafHash 1, leafHash 2]).length = popcount 3 ∧
    (pollardRoots [(leafHash 0, true)]).length = popcount 1 := by
  constructor
  · have hr : StumpReachable [leafHash 0, leafHash 1, leafHash 2] :=
      .step [] emptyProof [] [leafHash 0, leafHash 1, leafHash 2] _ .empty rfl
    exact c3_roots_popcount.1 _ hr
  · have hr : PollardReachable [(leafHash 0, true)] :=
      .step [] emptyProof [] [(leafHash 0, true)] _ .empty rfl
    exact c3_roots_popcount.2 _ hr


/-- Witness for C9: a payload naming only a `proof` field is rejected as
MalformedInput by both verify and modify, the latter leaving the state
unchanged. -/
theorem c9_missing_fields_witness :
    lacksProofFields (Json.obj [("proof".toList, Json.arr [])]) = true ∧
    stumpVerifyCall [] (Json.obj [("proof".toList, Json.arr [])]) [] =
      .error .malformedInput ∧
    stumpModifyCall [] (Json.obj [("proof".toList, Json.arr [])]) [] [] =
      (.error .malformedInput, []) :=
  ⟨rfl, (c9_missing_fields (Json.obj [("proof".toList, Json.arr [])]) [] [] [] [] rfl).1,
   (c9_missing_fields (Json.obj [("proof".toList, Json.arr [])]) [] [] [] [] rfl).2⟩

/-- Witness for C6: a `modify` call with an unparsable proof payload
reports MalformedInput and leaves both accumulators' states unchanged. -/
theorem c6_atomic_modify_witness :
    (stumpModifyCall [] Json.null [] []).1 = .error .malformedInput ∧
    (stumpModifyCall [] Json.null [] []).2 = [] ∧
    (pollardModifyCall [] Json.null [] []).1 = .error .malformedInput ∧
    (pollardModifyCall [] Json.null [] []).2 = [] :=
  ⟨rfl, c6_atomic_modify.1 [] Json.null [] [] .malformedInput rfl, rfl,
   c6_atomic_modify.2 [] Json.null [] [] .malformedInput rfl⟩

/-- Witness for C10: the string `xyz` is not a 64-character lowercase
hexadecimal hash, parsing it errors, and supplying it as an addition
leaves the accumulator untouched. -/
theorem c10_invalid_hash_rejected_witness :
    ¬ isHash64 "xyz".toList ∧
    parseHashStr "xyz".toList = .error .malformedInput ∧
    (stumpModifyCall [] extraFieldPayload ["xyz".toList] []).2 = [] := by
  have hinv : ¬ isHash64 "xyz".toList := by
    unfold isHash64
    decide
  exact ⟨hinv, (c10_invalid_hash_rejected "xyz".toList hinv).1,
    (c10_invalid_hash_rejected "xyz".toList hinv).2 [] extraFieldPayload [] [] []⟩

/-- A strictly ascending position list is sorted under `<`. -/
theorem ascendingStrict_sorted :
    ∀ l : List Nat, ascendingStrict l = true → l.Sorted (· < ·) := by
  intro l
  induction l with
  | nil => intro; exact List.sorted_nil
  | cons a t ih =>
    intro h
    cases t with
    | nil => exact List.sorted_singleton a
    | cons b rest =>
      simp only [ascendingStrict, Bool.and_eq_true, decide_eq_true_eq] at h
      have hst := ih h.2
      rw [List.sorted_cons]
      refine ⟨fun x hx => ?_, hst⟩
      rcases List.mem_cons.mp hx with rfl | hx2
      · exact h.1
      · exact lt_trans h.1 ((List.sorted_cons.mp hst).1 x hx2)

/-- Swap-to-last compaction of strictly descending in-range positions
removes exactly one leaf per position. -/
theorem removeTargets_length {α : Type} :
    ∀ (ts : List Nat) (ls : List α), ts.Sorted (· ≥ ·) → ts.Nodup →
      (∀ t ∈ ts, t < ls.length) →
      ∃ ls', removeTargets ls ts = some ls' ∧ ls'.length = ls.length - ts.length := by
  intro ts
  induction ts with
  | nil =>
    intro ls _ _ _
    exact ⟨ls, rfl, by simp⟩
  | cons t ts ih =>
    intro ls hs hn hb
    have ht : t < ls.length := hb t (List.mem_cons_self t ts)
    cases hgl : ls.getLast? with
    | none =>
      rw [List.getLast?_eq_none_iff.mp hgl] at ht
      simp at ht
    | some last =>
      have hsw : swapRemove ls t = some ((ls.set t last).dropLast) := by
        simp [swapRemove, ht, hgl]
      have hlen1 : ((ls.set t last).dropLast).length = ls.length - 1 := by
        simp [List.length_dropLast, List.length_set]
      have hs' : ts.Sorted (· ≥ ·) := (List.sorted_cons.mp hs).2
      have hn' : ts.Nodup := (List.nodup_cons.mp hn).2
      have hb' : ∀ x ∈ ts, x < ((ls.set t last).dropLast).length := by
        intro x hx
        have hxt : t ≥ x := (List.sorted_cons.mp hs).1 x hx
        have hne : x ≠ t := fun he => (List.nodup_cons.mp hn).1 (he ▸ hx)
        rw [hlen1]
        omega
      obtain ⟨ls', hrm, hlen'⟩ := ih ((ls.set t last).dropLast) hs' hn' hb'
      refine ⟨ls', ?_, ?_⟩
      · simp [removeTargets, hsw, hrm]
      · rw [hlen', hlen1]
        simp only [List.length_cons]
        omega

/-- Claim C5: every successful `modify` removes exactly its k deletion
targets from the leaf counter (and then appends its additions), and the
recomputed root sequence has `popcount` of the new leaf count many
roots; with no additions the counter decreases by exactly k. -/
theorem c5_deletion_counts (f : List Bytes) (pf : Proof) (dels adds f' : List Bytes)
    (h : stumpModify f pf dels adds = .ok f') :
    f'.length = (f.length - pf.targets.length) + adds.length ∧
    (stumpRoots f').length = popcount f'.length := by
  refine ⟨?_, stumpRoots_popcount f'⟩
  unfold stumpModify at h
  by_cases h1 : pf.targets.length ≠ dels.length
  · rw [if_pos h1] at h
    cases h
  · rw [if_neg h1] at h
    by_cases h2 : stumpVerify f.length (stumpRoots f) pf dels = false
    · rw [if_pos h2] at h
      cases h
    · rw [if_neg h2] at h
      have hvt : stumpVerify f.length (stumpRoots f) pf dels = true := by
        cases hb : stumpVerify f.length (stumpRoots f) pf dels with
        | false => exact absurd hb h2
        | true => rfl
      have hcomp := hvt
      simp only [stumpVerify, Bool.and_eq_true, beq_iff_eq, List.all_eq_true,
        decide_eq_true_eq] at hcomp
      obtain ⟨⟨⟨-, hasc⟩, hall⟩, -⟩ := hcomp
      have hsorted : (sortDesc pf.targets).Sorted (· ≥ ·) :=
        List.sorted_insertionSort _ pf.targets
      have hnodup : (sortDesc pf.targets).Nodup :=
        (List.perm_insertionSort _ pf.targets).nodup_iff.mpr
          ((ascendingStrict_sorted pf.targets hasc).nodup)
      have hbound : ∀ x ∈ sortDesc pf.targets, x < f.length := by
        intro x hx
        exact hall x ((List.perm_insertionSort _ pf.targets).mem_iff.mp hx)
      obtain ⟨ls', hrm, hlen⟩ :=
        removeTargets_length (sortDesc pf.targets) f hsorted hnodup hbound
      rw [hrm] at h
      cases h
      have hsl : (sortDesc pf.targets).length = pf.targets.length :=
        List.length_insertionSort _ _
      rw [List.length_append, hlen, hsl]


/-- Witness for C5: deleting leaf `0` from the 8-leaf reference state via
the reference proof succeeds, moves the last leaf into the hole, drops the
leaf counter from 8 to 7, and leaves `popcount 7 = 3` roots. -/
theorem c5_deletion_counts_witness :
    stumpModify demoStump8 demoProof0 [leafHash 0] [] =
      .ok [leafHash 7, leafHash 1, leafHash 2, leafHash 3, leafHash 4,
           leafHash 5, leafHash 6] ∧
    ([leafHash 7, leafHash 1, leafHash 2, leafHash 3, leafHash 4, leafHash 5,
      leafHash 6] : List Bytes).length =
      (demoStump8.length - demoProof0.targets.length) + ([] : List Bytes).length ∧
    (stumpRoots [leafHash 7, leafHash 1, leafHash 2, leafHash 3, leafHash 4,
      leafHash 5, leafHash 6]).length =
      popcount ([leafHash 7, leafHash 1, leafHash 2, leafHash 3, leafHash 4,
        leafHash 5, leafHash 6] : List Bytes).length := by
  have hmod : stumpModify demoStump8 demoProof0 [leafHash 0] [] =
      .ok [leafHash 7, leafHash 1, leafHash 2, leafHash 3, leafHash 4,
           leafHash 5, leafHash 6] := by decide
  exact ⟨hmod, (c5_deletion_counts _ _ _ _ _ hmod).1, (c5_deletion_counts _ _ _ _ _ hmod).2⟩

/-- Swap-to-last removal commutes with mapping a projection over the
leaves. -/
theorem swapRemove_map {α β : Type} (g : α → β) (ls : List α) (t : Nat) :
    swapRemove (ls.map g) t = (swapRemove ls t).map (List.map g) := by
  unfold swapRemove
  rw [List.length_map]
  by_cases ht : t < ls.length
  · rw [if_pos ht, if_pos ht, List.getLast?_map]
    cases hgl : ls.getLast? with
    | none => rfl
    | some last =>
      simp [List.map_dropLast, List.map_set]
  · rw [if_neg ht, if_neg ht]
    rfl

/-- Batch removal commutes with mapping a projection over the leaves. -/
theorem removeTargets_map {α β : Type} (g : α → β) :
    ∀ (ts : List Nat) (ls : List α),
      removeTargets (ls.map g) ts = (removeTargets ls ts).map (List.map g) := by
  intro ts
  induction ts with
  | nil => intro ls; rfl
  | cons t ts ih =>
    intro ls
    simp only [removeTargets]
    rw [swapRemove_map g ls t]
    cases hsw : swapRemove ls t with
    | none => rfl
    | some ls' =>
      simp only [Option.map_some]
      exact ih ls'

/-- A Pollard `modify` projects onto the Stump `modify` on the flag-stripped
leaves: the two engines take the same branches and produce the same
observable result. -/
theorem pollardModify_map (p : List (Bytes × Bool)) (pf : Proof) (dels : List Bytes)
    (adds : List (Bytes × Bool)) :
    (pollardModify p pf dels adds).map (List.map Prod.fst) =
      stumpModify (p.map Prod.fst) pf dels (adds.map Prod.fst) := by
  unfold pollardModify stumpModify
  rw [List.length_map]
  simp only [stumpRoots, pollardRoots, pollardLeaves]
  by_cases h1 : pf.targets.length ≠ dels.length
  · rw [if_pos h1, if_pos h1]
    rfl
  · rw [if_neg h1, if_neg h1]
    by_cases h2 : stumpVerify p.length (buildHashTree (p.map Prod.fst)) pf dels = false
    · rw [if_pos h2, if_pos h2]
      rfl
    · rw [if_neg h2, if_neg h2]
      rw [removeTargets_map Prod.fst (sortDesc pf.targets) p]
      cases hrm : removeTargets p (sortDesc pf.targets) with
      | none => rfl
      | some p' => simp [Except.map]

/-- Driving a Stump with the flag-stripped view of a Pollard's update
stream keeps it the projection of the Pollard, step by step. -/
theorem run_refines :
    ∀ (ops : List AccOp) (p : List (Bytes × Bool)),
      runStumpFrom (p.map Prod.fst) ops = (runPollardFrom p ops).map (List.map Prod.fst) := by
  intro ops
  induction ops with
  | nil => intro p; rfl
  | cons op ops ih =>
    intro p
    have hmm := pollardModify_map p op.proof op.dels op.adds
    simp only [runStumpFrom, runPollardFrom]
    cases hm : pollardModify p op.proof op.dels op.adds with
    | ok p' =>
      rw [hm] at hmm
      have hs : stumpModify (p.map Prod.fst) op.proof op.dels (op.adds.map Prod.fst) =
          .ok (p'.map Prod.fst) := by
        rw [← hmm]
        rfl
      rw [hs]
      exact ih p'
    | error e =>
      rw [hm] at hmm
      have hs : stumpModify (p.map Prod.fst) op.proof op.dels (op.adds.map Prod.fst) =
          .error e := by
        rw [← hmm]
        rfl
      rw [hs]
      rfl

/-- Claim C7: a Stump and a Pollard driven by the same sequence of
successful `modify` calls (same proofs, same deletions, same additions in
order, the Stump seeing the additions without remember flags) have equal
leaf counts and byte-identical root sequences after every step (every
driving sequence, hence every prefix, is covered). -/
theorem c7_stump_pollard_agreement (ops : List AccOp) (p : List (Bytes × Bool))
    (f : List Bytes) (hp : runPollardFrom [] ops = .ok p)
    (hf : runStumpFrom [] ops = .ok f) :
    f.length = p.length ∧ f = pollardLeaves p ∧ stumpRoots f = pollardRoots p := by
  have hr := run_refines ops []
  rw [show (([] : List (Bytes × Bool)).map Prod.fst) = ([] : List Bytes) from rfl] at hr
  rw [hp, hf] at hr
  have hfp : f = p.map Prod.fst := by
    simpa [Except.map] using hr
  subst hfp
  exact ⟨List.length_map _ _, rfl, rfl⟩

/-- Witness for C7: one shared `modify` adding one leaf leaves the Stump
the exact projection of the Pollard. -/
theorem c7_stump_pollard_agreement_witness :
    ([leafHash 0] : List Bytes).length = [(leafHash 0, true)].length ∧
    [leafHash 0] = pollardLeaves [(leafHash 0, true)] ∧
    stumpRoots [leafHash 0] = pollardRoots [(leafHash 0, true)] :=
  c7_stump_pollard_agreement [⟨emptyProof, [], [(leafHash 0, true)]⟩]
    [(leafHash 0, true)] [leafHash 0] rfl rfl


/-- Every value below 16 encodes to a lowercase hexadecimal digit that
decodes back to itself. -/
theorem hexValLower_hexDigit : ∀ x < 16, hexValLower (hexDigit x) = some x := by
  decide

/-- Decoding inverts encoding on byte strings. -/
theorem hexDecode_hexEncode (bs : Bytes) (h : ∀ b ∈ bs, b < 256) :
    hexDecode (hexEncode bs) = some bs := by
  induction bs with
  | nil => rfl
  | cons b rest ih =>
    have hb : b < 256 := h b (List.mem_cons_self b rest)
    have h1 : hexValLower (hexDigit (b / 16)) = some (b / 16) :=
      hexValLower_hexDigit _ (by omega)
    have h2 : hexValLower (hexDigit (b % 16)) = some (b % 16) :=
      hexValLower_hexDigit _ (by omega)
    have ih' := ih (fun x hx => h x (List.mem_cons_of_mem b hx))
    show hexDecode (hexDigit (b / 16) :: hexDigit (b % 16) :: hexEncode rest) = _
    simp only [hexDecode, h1, h2, ih']
    have hbv : 16 * (b / 16) + b % 16 = b := by omega
    rw [hbv]

/-- Encoding doubles the length. -/
theorem hexEncode_length (bs : Bytes) : (hexEncode bs).length = 2 * bs.length := by
  induction bs with
  | nil => rfl
  | cons b rest ih =>
    show (hexDigit (b / 16) :: hexDigit (b % 16) :: hexEncode rest).length = _
    simp only [List.length_cons, ih, List.length_cons]
    omega

/-- A 32-byte digest's lowercase encoding parses back to the digest. -/
theorem parseHashStr_hexEncode (r : Bytes) (hlen : r.length = 32)
    (hv : ∀ b ∈ r, b < 256) : parseHashStr (hexEncode r) = .ok r := by
  unfold parseHashStr
  rw [hexEncode_length, hlen]
  rw [if_pos (by norm_num), hexDecode_hexEncode r hv]

/-- A root list of 32-byte digests round-trips through its encoding. -/
theorem parseHashList_hexEncode (rs : List Bytes)
    (h : ∀ r ∈ rs, r.length = 32 ∧ ∀ b ∈ r, b < 256) :
    parseHashList (rs.map hexEncode) = .ok rs := by
  induction rs with
  | nil => rfl
  | cons r rest ih =>
    have h1 := h r (List.mem_cons_self r rest)
    have hp := parseHashStr_hexEncode r h1.1 h1.2
    have ih' := ih (fun x hx => h x (List.mem_cons_of_mem r hx))
    simp only [List.map_cons, parseHashList, hp, ih']

/-- Claim C8: serialization round-trips exactly: importing the canonical
`{roots, leaves}` export of a Stump yields a Stump whose leaf count and
root sequence are identical to the original's (stated for any state whose
roots are 32-byte digests, as every hash-valued root is). -/
theorem c8_serialization_roundtrip (f : List Bytes)
    (h : ∀ r ∈ stumpRoots f, r.length = 32 ∧ ∀ b ∈ r, b < 256) :
    stumpFromJson (stumpToJson f) = .ok (f.length, stumpRoots f) := by
  unfold stumpFromJson stumpToJson
  rw [parseHashList_hexEncode (stumpRoots f) h]

/-- Witness for C8: the one-leaf Stump round-trips through its canonical
export. -/
theorem c8_serialization_roundtrip_witness :
    (∀ r ∈ stumpRoots [leafHash 0], r.length = 32 ∧ ∀ b ∈ r, b < 256) ∧
    stumpFromJson (stumpToJson [leafHash 0]) =
      .ok (([leafHash 0] : List Bytes).length, stumpRoots [leafHash 0]) := by
  have hv : ∀ r ∈ stumpRoots [leafHash 0], r.length = 32 ∧ ∀ b ∈ r, b < 256 := by
    decide
  exact ⟨hv, c8_serialization_roundtrip [leafHash 0] hv⟩

end Rustreexo
